import Mathlib

set_option maxHeartbeats 1000000

/-!
Verification of the Umberjack core against its source:
`sam/sam_record.py` (CIGAR decoding and windowed extraction),
`sam/sam_handler.py` (mate pairing and FASTA output naming), and
`pool/MPIPool.py` (primary/replica work pool).
Python sequences become `List Char`, Python ints become `Int`/`Nat`,
raising becomes `Except String`, and Python slice/truthiness semantics
are embedded explicitly.
-/

namespace Umberjack

/-- Python slice-index normalization: a negative index counts from the end
of the sequence and everything clamps into `[0, len]`. -/
def pyIndex (len : Nat) (i : Int) : Nat :=
  if i < 0 then (len + i).toNat else min i.toNat len

/-- Python `s[a:b]`. -/
def pySlice (s : List α) (a b : Int) : List α :=
  (s.take (pyIndex s.length b)).drop (pyIndex s.length a)

/-- Python truthiness of an int-or-None argument: `None` and `0` are falsy. -/
def truthy : Option Int → Bool
  | none => false
  | some n => n != 0

/-- Underlying int of an int-or-None argument (`0` for `None`). -/
def oval : Option Int → Int
  | none => 0
  | some n => n

/-- Modelled from the spec: `sam_constants.SEQ_PAD_CHAR` is not under `src/`;
the spec calls it the gap-placeholder base and `sam_handler.__write_seq`
counts it as `'-'`. -/
def SEQ_PAD_CHAR : Char := '-'

/-- Modelled from the spec: `sam_constants.QUAL_PAD_CHAR` is not under `src/`;
per the source comment it denotes the fixed "no-quality" placeholder with
Phred score -1, i.e. the character at Sanger offset 32. -/
def QUAL_PAD_CHAR : Char := ' '

/-- Modelled from the spec: `sam_constants.PHRED_SANGER_OFFSET`, the standard
Sanger quality offset 33. -/
def PHRED_SANGER_OFFSET : Int := 33

/-- One SAM alignment record (the fields `SamRecord.__parse_cigar` and
`SamRecord.get_seq_qual` read).  The CIGAR string arrives already split by
`sam_constants.CIGAR_RE` into (length, operator) tokens. -/
structure SamRecord where
  ref_len : Int
  pos : Int
  seq : List Char
  qual : List Char
  cigar : List (Nat × Char)
  deriving DecidableEq, Repr

/-- The fields `SamRecord.__parse_cigar` fills: the reference-anchored,
insertion-free sequence and quality, the insertion side table, and the two
span counters. -/
structure ParsedCigar where
  nopad_noinsert_seq : List Char
  nopad_noinsert_qual : List Char
  ref_pos_to_insert_seq_qual : List (Int × (List Char × List Char))
  ref_align_len : Int
  seq_align_len : Int
  deriving DecidableEq, Repr

/-- Initial state of `SamRecord.__parse_cigar`. -/
def emptyParsed : ParsedCigar :=
  { nopad_noinsert_seq := []
    nopad_noinsert_qual := []
    ref_pos_to_insert_seq_qual := []
    ref_align_len := 0
    seq_align_len := 0 }

/-- Python `dict.update({k: v})` on an insertion-ordered int-keyed dict:
replace the value if the key exists, else append the binding. -/
def dictUpdate (m : List (Int × β)) (k : Int) (v : β) : List (Int × β) :=
  match m with
  | [] => [(k, v)]
  | (k', v') :: rest => if k' = k then (k, v) :: rest else (k', v') :: dictUpdate rest k v

/-- The token loop of `SamRecord.__parse_cigar` (sam_record.py lines 226-255),
walking the (length, operator) tokens with a 0-based read cursor and the
variable `pos_wrt_ref_1based`.  Faithful to the source: the reference-position
variable is advanced only on M/X/= tokens, not on D/P/N tokens. -/
def parseCigarAux (seq qual : List Char) :
    List (Nat × Char) → Int → Int → ParsedCigar → Except String ParsedCigar
  | [], _, _, st => .ok st
  | (length, op) :: rest, pos_wrt_seq, pos_wrt_ref, st =>
    if op = 'M' ∨ op = 'X' ∨ op = '=' then
      parseCigarAux seq qual rest (pos_wrt_seq + (length : Int)) (pos_wrt_ref + (length : Int))
        { st with
          nopad_noinsert_seq :=
            st.nopad_noinsert_seq ++ pySlice seq pos_wrt_seq (pos_wrt_seq + (length : Int))
          nopad_noinsert_qual :=
            st.nopad_noinsert_qual ++ pySlice qual pos_wrt_seq (pos_wrt_seq + (length : Int))
          ref_align_len := st.ref_align_len + (length : Int)
          seq_align_len := st.seq_align_len + (length : Int) }
    else if op = 'D' ∨ op = 'P' ∨ op = 'N' then
      parseCigarAux seq qual rest pos_wrt_seq pos_wrt_ref
        { st with
          nopad_noinsert_seq := st.nopad_noinsert_seq ++ List.replicate length SEQ_PAD_CHAR
          nopad_noinsert_qual := st.nopad_noinsert_qual ++ List.replicate length QUAL_PAD_CHAR
          ref_align_len := st.ref_align_len + (length : Int) }
    else if op = 'I' then
      parseCigarAux seq qual rest (pos_wrt_seq + (length : Int)) pos_wrt_ref
        { st with
          ref_pos_to_insert_seq_qual :=
            dictUpdate st.ref_pos_to_insert_seq_qual (pos_wrt_ref - 1)
              (pySlice seq pos_wrt_seq (pos_wrt_seq + (length : Int)),
               pySlice qual pos_wrt_seq (pos_wrt_seq + (length : Int)))
          seq_align_len := st.seq_align_len + (length : Int) }
    else if op = 'S' then
      parseCigarAux seq qual rest (pos_wrt_seq + (length : Int)) pos_wrt_ref st
    else
      .error ("Unable to handle CIGAR token: " ++ toString length ++ String.mk [op] ++ " - quitting")

/-- `SamRecord.__parse_cigar`: decode the record's CIGAR starting the read
cursor at 0 and the reference cursor at the record's 1-based `pos`. -/
def parseCigar (r : SamRecord) : Except String ParsedCigar :=
  parseCigarAux r.seq r.qual r.cigar 0 r.pos emptyParsed

/-- `SamRecord.get_seq_start_wrt_ref`. -/
def get_seq_start_wrt_ref (r : SamRecord) : Int := r.pos

/-- `SamRecord.get_seq_end_wrt_ref` given the decoded CIGAR. -/
def get_seq_end_wrt_ref (r : SamRecord) (pc : ParsedCigar) : Int :=
  r.pos + pc.ref_align_len - 1

/-- The masking loop of `SamRecord.get_seq_qual` (lines 114-122): replace
non-pad bases of quality below the cutoff with `'N'`.  Python reads
`result_qual[i]` before testing the base, so a quality string shorter than
the sequence raises `IndexError`. -/
def maskLowQual : List Char → List Char → Int → Except String (List Char)
  | [], _, _ => .ok []
  | base :: bs, q :: qs, q_cutoff =>
    (maskLowQual bs qs q_cutoff).map
      (fun restMasked =>
        (if base ≠ SEQ_PAD_CHAR ∧ ((q.toNat : Int) - PHRED_SANGER_OFFSET) < q_cutoff
         then 'N' else base) :: restMasked)
  | _ :: _, [], _ => .error "IndexError: string index out of range"

/-- The insertion-masking loop of `SamRecord.get_seq_qual` (lines 139-148):
keep only inserted bases whose quality clears the cutoff, flagging whether
any base was dropped. -/
def maskInsertSeq : List Char → List Char → Int → Except String (List Char × Bool)
  | [], _, _ => .ok ([], false)
  | ichar :: rest, q :: qs, q_cutoff =>
    (maskInsertSeq rest qs q_cutoff).map
      (fun mr =>
        if ((q.toNat : Int) - PHRED_SANGER_OFFSET) ≥ q_cutoff
        then (ichar :: mr.1, mr.2)
        else (mr.1, true))
  | _ :: _, [], _ => .error "IndexError: string index out of range"

/-- The insertion re-splicing loop of `SamRecord.get_seq_qual` (lines
125-158): walk the insertion dict in order, and for each entry anchored in
`[ssd, sed)` splice the (possibly masked) inserted bases into the clipped
sequence, while the quality side always receives the full insert quality. -/
def spliceAux (rs rq : List Char) (ssd sed seq_start : Int)
    (do_mask : Bool) (q_cutoff : Int) :
    List (Int × (List Char × List Char)) → Int → List Char → List Char →
    Except String (List Char × List Char)
  | [], last, accS, accQ =>
    .ok (accS ++ pySlice rs (last + 1) (rs.length : Int),
         accQ ++ pySlice rq (last + 1) (rq.length : Int))
  | (k, iv) :: rest, last, accS, accQ =>
    if ssd ≤ k ∧ k < sed then
      ((if do_mask then (maskInsertSeq iv.1 iv.2 q_cutoff).map Prod.fst else .ok iv.1).bind
        (fun masked =>
          spliceAux rs rq ssd sed seq_start do_mask q_cutoff rest (k - max seq_start ssd)
            (accS ++ pySlice rs (last + 1) (k - max seq_start ssd + 1) ++ masked)
            (accQ ++ pySlice rq (last + 1) (k - max seq_start ssd + 1) ++ iv.2)))
    else
      spliceAux rs rq ssd sed seq_start do_mask q_cutoff rest last accS accQ

/-- Body of `SamRecord.get_seq_qual` after the CIGAR decode (lines 75-190):
range validation, the no-overlap shortcut, clipping to the window, optional
quality masking, optional insertion re-splicing, and optional padding. -/
def get_seq_qual_parsed (r : SamRecord)
    (do_pad_wrt_ref do_pad_wrt_slice do_mask_low_qual : Bool) (q_cutoff : Int)
    (slice_start slice_end : Option Int) (do_insert_wrt_ref : Bool)
    (pc : ParsedCigar) : Except String (List Char × List Char) :=
  if truthy slice_start && truthy slice_end && decide (oval slice_start > oval slice_end) then
    .error "slice start must be <= slice end"
  else if (!truthy slice_start && truthy slice_end) || (truthy slice_start && !truthy slice_end) then
    .error "Either define both slice start and end or don't define either"
  else if (truthy slice_start && decide (oval slice_start > get_seq_end_wrt_ref r pc))
       || (truthy slice_end && decide (oval slice_end < get_seq_start_wrt_ref r)) then
    if do_pad_wrt_ref then
      .ok (List.replicate r.ref_len.toNat SEQ_PAD_CHAR,
           List.replicate r.ref_len.toNat QUAL_PAD_CHAR)
    else if do_pad_wrt_slice then
      .ok (List.replicate (oval slice_end - oval slice_start + 1).toNat SEQ_PAD_CHAR,
           List.replicate (oval slice_end - oval slice_start + 1).toNat QUAL_PAD_CHAR)
    else
      .ok (pc.nopad_noinsert_seq, pc.nopad_noinsert_qual)
  else
    let ssd : Int := if truthy slice_start then oval slice_start else 1
    let sed : Int := if truthy slice_end then oval slice_end else r.ref_len
    let a : Int := max (get_seq_start_wrt_ref r) ssd - get_seq_start_wrt_ref r
    let b : Int := pc.ref_align_len - 1 -
      (get_seq_end_wrt_ref r pc - min (get_seq_end_wrt_ref r pc) sed)
    let rs0 := pySlice pc.nopad_noinsert_seq a (b + 1)
    let rq0 := pySlice pc.nopad_noinsert_qual a (b + 1)
    match (if do_mask_low_qual then maskLowQual rs0 rq0 q_cutoff else .ok rs0) with
    | .error e => .error e
    | .ok rs1 =>
      match (if do_insert_wrt_ref then
               spliceAux rs1 rq0 ssd sed (get_seq_start_wrt_ref r) do_mask_low_qual q_cutoff
                 pc.ref_pos_to_insert_seq_qual (-1) [] []
             else .ok (rs1, rq0)) with
      | .error e => .error e
      | .ok rsq =>
        if do_pad_wrt_ref then
          .ok (List.replicate (max ssd (get_seq_start_wrt_ref r) - 1).toNat SEQ_PAD_CHAR
                 ++ rsq.1 ++
               List.replicate (r.ref_len - min (get_seq_end_wrt_ref r pc) sed).toNat SEQ_PAD_CHAR,
               List.replicate (max ssd (get_seq_start_wrt_ref r) - 1).toNat QUAL_PAD_CHAR
                 ++ rsq.2 ++
               List.replicate (r.ref_len - min (get_seq_end_wrt_ref r pc) sed).toNat QUAL_PAD_CHAR)
        else if do_pad_wrt_slice then
          .ok (List.replicate (max ssd (get_seq_start_wrt_ref r) - ssd).toNat SEQ_PAD_CHAR
                 ++ rsq.1 ++
               List.replicate (sed - min (get_seq_end_wrt_ref r pc) sed).toNat SEQ_PAD_CHAR,
               List.replicate (max ssd (get_seq_start_wrt_ref r) - ssd).toNat QUAL_PAD_CHAR
                 ++ rsq.2 ++
               List.replicate (sed - min (get_seq_end_wrt_ref r pc) sed).toNat QUAL_PAD_CHAR)
        else
          .ok rsq

/-- `SamRecord.get_seq_qual`: decode the CIGAR (memoized in the source, pure
here), then slice/mask/splice/pad. -/
def get_seq_qual (r : SamRecord)
    (do_pad_wrt_ref do_pad_wrt_slice do_mask_low_qual : Bool) (q_cutoff : Int)
    (slice_start slice_end : Option Int) (do_insert_wrt_ref : Bool) :
    Except String (List Char × List Char) :=
  match parseCigar r with
  | .error e => .error e
  | .ok pc =>
    get_seq_qual_parsed r do_pad_wrt_ref do_pad_wrt_slice do_mask_low_qual q_cutoff
      slice_start slice_end do_insert_wrt_ref pc

/-- Number of read bases a CIGAR consumes (M/X/=/I/S tokens). -/
def cigarReadLen : List (Nat × Char) → Nat
  | [] => 0
  | (l, op) :: rest =>
    (if op = 'M' ∨ op = 'X' ∨ op = '=' ∨ op = 'I' ∨ op = 'S' then l else 0) + cigarReadLen rest

/-- Number of reference bases a CIGAR covers (M/X/=/D/P/N tokens). -/
def cigarRefLen : List (Nat × Char) → Nat
  | [] => 0
  | (l, op) :: rest =>
    (if op = 'M' ∨ op = 'X' ∨ op = '=' ∨ op = 'D' ∨ op = 'P' ∨ op = 'N' then l else 0) + cigarRefLen rest

/-- Record with CIGAR `2M3D2I2M` at reference position 1: two matched bases,
a three-base deletion, a two-base insertion, two more matched bases. -/
def c1rec : SamRecord :=
  { ref_len := 20, pos := 1, seq := "AATTGG".toList, qual := "IIIIII".toList,
    cigar := [(2, 'M'), (3, 'D'), (2, 'I'), (2, 'M')] }

/-- Record with CIGAR `2M1I2M` at reference position 1: a one-base insertion
anchored inside reference positions 1..4. -/
def c3rec : SamRecord :=
  { ref_len := 10, pos := 1, seq := "AACGG".toList, qual := "IIIII".toList,
    cigar := [(2, 'M'), (1, 'I'), (2, 'M')] }

/-- Record with CIGAR `2M2I2M` at reference position 1 whose inserted bases
carry one low quality (`'!'`, Phred 0) and one high quality. -/
def c5rec : SamRecord :=
  { ref_len := 10, pos := 1, seq := "AATTGG".toList, qual := "II!III".toList,
    cigar := [(2, 'M'), (2, 'I'), (2, 'M')] }

/-- Record with an empty CIGAR; its decode trivially succeeds with the empty
state. -/
def emptyCigarRec : SamRecord :=
  { ref_len := 10, pos := 1, seq := [], qual := [], cigar := [] }

/-- Characters `sam_handler.NEWICK_NAME_RE` matches (the regex character
class `[:;\-\(\)\[\]]`, which includes the hyphen). -/
def NEWICK_SPECIAL : List Char := [':', ';', '-', '(', ')', '[', ']']

/-- The `re.sub(NEWICK_NAME_RE, '_', name)` renaming in
`sam_handler.__write_seq`: every matched character becomes an underscore. -/
def newick_nice_qname (name : List Char) : List Char :=
  name.map (fun c => if c ∈ NEWICK_SPECIAL then '_' else c)

/-- `sam_handler.__write_seq` (lines 21-41): write the renamed header and the
sequence when the ambiguous-base and breadth thresholds pass, else nothing.
Python's float arithmetic is modelled with exact rationals. -/
def write_seq (name seq : List Char) (max_prop_N breadth_thresh : ℚ) :
    Option (List Char × List Char) :=
  if (seq.count 'N' : ℚ) / (seq.length : ℚ) ≤ max_prop_N ∧
     ((seq.count 'N' + seq.count '-' : ℚ)) / (seq.length : ℚ) ≤ 1 - breadth_thresh then
    some (newick_nice_qname name, seq)
  else
    none

/-- Transformation the claim about output headers describes, stated from the
spec's words for comparison with the code's `newick_nice_qname`: exactly the
characters `: ; ( ) [ ]` replaced by underscore. -/
def claimHeaderSixChars (name : List Char) : List Char :=
  name.map (fun c => if c ∈ [':', ';', '(', ')', '[', ']'] then '_' else c)

/-- One alignment record as `sam_handler.record_iter` sees it.  The flag-bit
predicates live in the `single_record` module, which is not under `src/`;
modelled from the spec, they become abstract booleans: `keep` bundles
is-mapped-to-ref / is-primary / not-chimeric (line 92), `mateMapped` is
`is_mate_mapped()` and `mateMappedRef` is `is_mate_mapped(ref)`. -/
structure HRec where
  qname : Nat
  mapq : Int
  mateMapped : Bool
  mateMappedRef : Bool
  keep : Bool
  deriving DecidableEq, Repr

/-- A yielded `PairedRecord(prev_mate, mate)`. -/
def HPair := Option HRec × Option HRec
deriving instance DecidableEq, Repr for HPair

/-- One iteration of the `record_iter` loop body (sam_handler.py lines
95-135) for a record that survived the line-92 filters: given the pending
mate and the current record, produce the new pending mate and the yielded
pair, or raise on inconsistent pairing. -/
def riStep (cutoff : Int) (prev : Option HRec) (m : HRec) :
    Except String (Option HRec × Option HPair) :=
  match prev with
  | none =>
    if m.mateMapped then .ok (some m, none)
    else if m.mapq ≥ cutoff then .ok (none, some ((none : Option HRec), some m))
    else .ok (none, none)
  | some p =>
    if !p.mateMappedRef then
      .error "Invalid logic.  Shouldn't get here."
    else if p.qname = m.qname then
      if !m.mateMappedRef then
        .error "Previous mate and this mate have the same qname but this mate says it doesn't have a mapped mate"
      else if p.mapq ≥ cutoff ∧ m.mapq ≥ cutoff then .ok (none, some (some p, some m))
      else if p.mapq ≥ cutoff then .ok (none, some (some p, none))
      else if m.mapq ≥ cutoff then .ok (none, some ((none : Option HRec), some m))
      else if m.mateMapped then .ok (some m, none)
      else .ok (some p, none)
    else
      if p.mapq ≥ cutoff then .ok (none, some (some p, none))
      else if m.mateMapped then .ok (some m, none)
      else .ok (some p, none)

/-- `sam_handler.record_iter` over an in-memory record stream (lines 76-140):
skip filtered records, run the pending-mate state machine, and at stream end
flush a pending mate that clears the mapping-quality cutoff. -/
def record_iter (cutoff : Int) : List HRec → Option HRec → Except String (List HPair)
  | [], prev =>
    .ok (match prev with
         | some p => if p.mapq ≥ cutoff then [((some p, none) : HPair)] else []
         | none => [])
  | m :: rest, prev =>
    if !m.keep then record_iter cutoff rest prev
    else
      (riStep cutoff prev m).bind
        (fun step =>
          (record_iter cutoff rest step.1).map
            (fun out => step.2.toList ++ out))

/-- Pair-expecting record (mate flagged mapped) with query name 1 and high
mapping quality. -/
def hA : HRec :=
  { qname := 1, mapq := 99, mateMapped := true, mateMappedRef := true, keep := true }

/-- Unpaired record (mate flagged unmapped) with query name 2 and high
mapping quality. -/
def hB : HRec :=
  { qname := 2, mapq := 99, mateMapped := false, mateMappedRef := false, keep := true }

end Umberjack

namespace MPIPool

/-- `MPIPool.TAG_WORK`. -/
def TAG_WORK : Nat := 1

/-- `MPIPool.TAG_TERMINATE`. -/
def TAG_TERMINATE : Nat := 2

/-- Modelled from the spec: `MPI.ERR_TAG` is an MPI library constant distinct
from the pool's work and terminate tags. -/
def ERR_TAG : Nat := 4

/-- Observable events of the primary's scheduling loop: a job dispatched to a
replica, a completion observed from a replica (successful or not), and a
terminate message sent to a replica. -/
inductive Ev where
  | disp (rank : Nat) (job : Nat)
  | comp (rank : Nat) (job : Nat) (ok : Bool)
  | term (rank : Nat)
  deriving DecidableEq, Repr

/-- Primary-side scheduler state: the idle-replica FIFO (`available_replicas`)
and the busy map (`busy_replica_2_request`), carrying the job each busy
replica holds. -/
structure PoolState where
  available : List Nat
  busy : List (Nat × Nat)
  deriving DecidableEq, Repr

/-- Jobs held by the busy replicas, in dict order. -/
def busyJobs (st : PoolState) : List Nat := st.busy.map Prod.snd

/-- `MPIPool.wait_replica_done` (lines 67-88): wait-on-any over the busy
replicas' outstanding receives — the completing replica is chosen by the
environment, abstracted by the index `c` — then move that replica back to
the idle queue, drop its busy entry, and observe its completion (an error is
logged, a success invokes the callback; both are one `comp` event). -/
def wait_replica_done (okf : Nat → Bool) (c : Nat) (st : PoolState) : PoolState × List Ev :=
  if st.busy.isEmpty then (st, [])
  else
    let k := c % st.busy.length
    let rj := st.busy.getD k (0, 0)
    ({ available := st.available ++ [rj.1], busy := st.busy.eraseIdx k },
     [.comp rj.1 rj.2 (okf rj.2)])

/-- The dispatch loop of `MPIPool.launch_wait_replicas` (lines 112-137): for
each job, wait until a replica is idle, pop the idle FIFO, send the job
(non-blocking) and record the replica busy.  The replica-choice function
`choice` abstracts which outstanding receive completes first; `t` counts
completed waits.  An empty idle queue that cannot be refilled (no busy
replica, i.e. a zero-replica pool) aborts the loop like the source's
uncaught `IndexError`. -/
def runJobs (okf : Nat → Bool) (choice : Nat → Nat) :
    List Nat → PoolState → Nat → PoolState × Nat × List Ev
  | [], st, t => (st, t, [])
  | j :: rest, st, t =>
    let w : PoolState × Nat × List Ev :=
      if st.available.isEmpty then
        ((wait_replica_done okf (choice t) st).1, t + 1, (wait_replica_done okf (choice t) st).2)
      else (st, t, [])
    match w.1.available with
    | [] => (w.1, w.2.1, w.2.2)
    | rank :: availRest =>
      let st2 : PoolState := { available := availRest, busy := w.1.busy ++ [(rank, j)] }
      let rec2 := runJobs okf choice rest st2 w.2.1
      (rec2.1, rec2.2.1, w.2.2 ++ [Ev.disp rank j] ++ rec2.2.2)

/-- The drain loop of `MPIPool.launch_wait_replicas` (lines 141-142): repeat
the completion wait while any replica is busy.  Fuel is the busy count, which
the caller passes; each wait retires exactly one busy replica. -/
def drainAux (okf : Nat → Bool) (choice : Nat → Nat) :
    Nat → PoolState → Nat → PoolState × Nat × List Ev
  | 0, st, t => (st, t, [])
  | fuel + 1, st, t =>
    if st.busy.isEmpty then (st, t, [])
    else
      let w := wait_replica_done okf (choice t) st
      let rec2 := drainAux okf choice fuel w.1 (t + 1)
      (rec2.1, rec2.2.1, w.2 ++ rec2.2.2)

/-- `MPIPool.launch_wait_replicas` (lines 94-152): seed the idle FIFO with
ranks `1..numReplicas`, dispatch every job, drain all outstanding work, then
send one terminate message per replica rank.  `okf j` says whether the worker
function succeeds on job `j` (a raise becomes an error-tagged reply). -/
def launch_wait_replicas (jobs : List Nat) (numReplicas : Nat)
    (okf : Nat → Bool) (choice : Nat → Nat) : List Ev :=
  let st0 : PoolState := { available := List.range' 1 numReplicas, busy := [] }
  let r1 := runJobs okf choice jobs st0 0
  let r2 := drainAux okf choice r1.1.busy.length r1.1 r1.2.1
  r1.2.2 ++ r2.2.2 ++ (List.range' 1 numReplicas).map Ev.term

/-- Jobs dispatched, in order of dispatch. -/
def dispEvs (evs : List Ev) : List Nat :=
  evs.filterMap (fun e => match e with | .disp _ j => some j | _ => none)

/-- Jobs whose completion was observed, in order of observation. -/
def compEvs (evs : List Ev) : List Nat :=
  evs.filterMap (fun e => match e with | .comp _ j _ => some j | _ => none)

/-- Count of terminate messages in a trace. -/
def termCount (evs : List Ev) : Nat :=
  evs.countP (fun e => match e with | .term _ => true | _ => false)

/-- `MPIPool.replica_work` (lines 155-186) over the stream of messages the
primary sends this replica: exit on the first terminate-tagged message;
treat every other message as work, replying success-tagged (`TAG_WORK`) on
normal return and `MPI.ERR_TAG` with the traceback on a raise. -/
def replica_work (func : Nat → Except String Nat) :
    List (Nat × Nat) → List (Nat × Except String Nat)
  | [] => []
  | (tag, payload) :: rest =>
    if tag = TAG_TERMINATE then []
    else
      (match func payload with
       | .ok res => (TAG_WORK, Except.ok res)
       | .error e => (ERR_TAG, Except.error e)) :: replica_work func rest

/-- The reply handling of `MPIPool.wait_replica_done` (lines 80-88): the
error branch is taken exactly on `MPI.ERR_TAG`; every other tag logs success
and invokes the callback. -/
def callback_invoked (tag : Nat) : Bool := tag != ERR_TAG

/-- Reply a replica sends for one work message. -/
def work_reply (func : Nat → Except String Nat) (payload : Nat) : Nat × Except String Nat :=
  match func payload with
  | .ok res => (TAG_WORK, Except.ok res)
  | .error e => (ERR_TAG, Except.error e)

end MPIPool

namespace MPIPool

theorem map_eraseIdx (f : α → β) :
    ∀ (l : List α) (k : Nat), (l.eraseIdx k).map f = (l.map f).eraseIdx k := by
  intro l
  induction l with
  | nil => intro k; simp
  | cons hd tl ih =>
    intro k
    cases k with
    | zero => simp [List.eraseIdx]
    | succ n => simp [List.eraseIdx, ih]

theorem get_cons_eraseIdx_perm :
    ∀ (l : List α) (k : Nat) (h : k < l.length),
      (l.get ⟨k, h⟩ :: l.eraseIdx k).Perm l := by
  intro l
  induction l with
  | nil => intro k h; simp at h
  | cons hd tl ih =>
    intro k h
    cases k with
    | zero => simp [List.eraseIdx]
    | succ n =>
      have hn : n < tl.length := by simpa using h
      show (tl.get ⟨n, hn⟩ :: hd :: tl.eraseIdx n).Perm (hd :: tl)
      exact (List.Perm.swap hd (tl.get ⟨n, hn⟩) (tl.eraseIdx n)).trans ((ih n hn).cons hd)

end MPIPool

namespace Umberjack

theorem pyIndex_le (len : Nat) (i : Int) : pyIndex len i ≤ len := by
  unfold pyIndex
  split <;> omega

theorem pyIndex_of_nonneg {len : Nat} {i : Int} (h0 : 0 ≤ i) :
    pyIndex len i = min i.toNat len := by
  unfold pyIndex
  rw [if_neg (by omega)]

theorem pySlice_length (s : List α) (a b : Int) :
    (pySlice s a b).length = pyIndex s.length b - pyIndex s.length a := by
  unfold pySlice
  rw [List.length_drop, List.length_take]
  have := pyIndex_le s.length b
  omega

theorem pySlice_length_congr {s t : List α} (h : s.length = t.length) (a b : Int) :
    (pySlice s a b).length = (pySlice t a b).length := by
  rw [pySlice_length, pySlice_length, h]

theorem pySlice_all (s : List α) : pySlice s 0 (s.length : Int) = s := by
  unfold pySlice
  rw [pyIndex_of_nonneg (Int.natCast_nonneg _), pyIndex_of_nonneg le_rfl]
  simp

theorem maskLowQual_ok_length :
    ∀ (rs rq : List Char) (c : Int) (out : List Char),
      maskLowQual rs rq c = .ok out → out.length = rs.length := by
  intro rs
  induction rs with
  | nil =>
    intro rq c out h
    cases rq <;> simp only [maskLowQual] at h <;>
      (injection h with h2; rw [← h2])
  | cons b bs ih =>
    intro rq c out h
    cases rq with
    | nil => simp [maskLowQual] at h
    | cons q qs =>
      simp only [maskLowQual] at h
      cases hm : maskLowQual bs qs c with
      | error e => rw [hm] at h; simp [Except.map] at h
      | ok v =>
        rw [hm] at h
        simp only [Except.map] at h
        have hv := ih qs c v hm
        cases h
        simp [hv]

theorem maskLowQual_isOk :
    ∀ (rs rq : List Char) (c : Int), rs.length ≤ rq.length →
      ∃ out, maskLowQual rs rq c = .ok out := by
  intro rs
  induction rs with
  | nil => intro rq c _; exact ⟨[], by cases rq <;> simp [maskLowQual]⟩
  | cons b bs ih =>
    intro rq c hlen
    cases rq with
    | nil => simp at hlen
    | cons q qs =>
      obtain ⟨out, hout⟩ := ih qs c (by simpa using hlen)
      refine ⟨(if b ≠ SEQ_PAD_CHAR ∧ ((q.toNat : Int) - PHRED_SANGER_OFFSET) < c
               then 'N' else b) :: out, ?_⟩
      simp only [maskLowQual, hout, Except.map]

theorem maskInsertSeq_all_high :
    ∀ (insSeq insQual : List Char) (c : Int),
      insSeq.length ≤ insQual.length →
      (∀ q ∈ insQual, c ≤ (q.toNat : Int) - PHRED_SANGER_OFFSET) →
      maskInsertSeq insSeq insQual c = .ok (insSeq, false) := by
  intro insSeq
  induction insSeq with
  | nil =>
    intro insQual c _ _
    cases insQual <;> simp [maskInsertSeq]
  | cons i rest ih =>
    intro insQual c hlen hq
    cases insQual with
    | nil => simp at hlen
    | cons q qs =>
      have hrec := ih qs c (by simpa using hlen) (fun x hx => hq x (List.mem_cons_of_mem _ hx))
      simp only [maskInsertSeq, hrec, Except.map]
      rw [if_pos (hq q (List.mem_cons_self _ _))]

theorem mem_dictUpdate {β : Type} {k : Int} {v : β} :
    ∀ (m : List (Int × β)) (kv : Int × β), kv ∈ dictUpdate m k v → kv ∈ m ∨ kv = (k, v) := by
  intro m
  induction m with
  | nil => intro kv h; simp [dictUpdate] at h; right; exact h
  | cons hd tl ih =>
    intro kv h
    simp only [dictUpdate] at h
    by_cases he : hd.1 = k
    · rw [← Prod.mk.eta (p := hd), if_pos he] at h
      rcases List.mem_cons.mp h with h1 | h1
      · right; exact h1
      · left; exact List.mem_cons_of_mem _ h1
    · rw [← Prod.mk.eta (p := hd), if_neg he] at h
      rcases List.mem_cons.mp h with h1 | h1
      · left; rw [h1]; exact List.mem_cons_self _ _
      · rcases ih kv h1 with h2 | h2
        · left; exact List.mem_cons_of_mem _ h2
        · right; exact h2

theorem parseCigarAux_sym (seq qual : List Char) (hsq : qual.length = seq.length) :
    ∀ (toks : List (Nat × Char)) (ps pr : Int) (st st' : ParsedCigar),
      parseCigarAux seq qual toks ps pr st = .ok st' →
      st.nopad_noinsert_qual.length = st.nopad_noinsert_seq.length →
      (∀ kv ∈ st.ref_pos_to_insert_seq_qual, (kv.2.1).length = (kv.2.2).length) →
      st'.nopad_noinsert_qual.length = st'.nopad_noinsert_seq.length ∧
      ∀ kv ∈ st'.ref_pos_to_insert_seq_qual, (kv.2.1).length = (kv.2.2).length := by
  intro toks
  induction toks with
  | nil =>
    intro ps pr st st' h hn hi
    cases h
    exact ⟨hn, hi⟩
  | cons hd tl ih =>
    intro ps pr st st' h hn hi
    obtain ⟨l, op⟩ := hd
    simp only [parseCigarAux] at h
    by_cases h1 : op = 'M' ∨ op = 'X' ∨ op = '='
    · rw [if_pos h1] at h
      refine ih _ _ _ _ h ?_ hi
      simp only [List.length_append, hn]
      rw [pySlice_length_congr hsq]
    · rw [if_neg h1] at h
      by_cases h2 : op = 'D' ∨ op = 'P' ∨ op = 'N'
      · rw [if_pos h2] at h
        refine ih _ _ _ _ h ?_ hi
        simp [hn]
      · rw [if_neg h2] at h
        by_cases h3 : op = 'I'
        · rw [if_pos h3] at h
          refine ih _ _ _ _ h hn ?_
          intro kv hkv
          rcases mem_dictUpdate _ kv hkv with hm | hm
          · exact hi kv hm
          · rw [hm]
            exact pySlice_length_congr hsq.symm _ _
        · rw [if_neg h3] at h
          by_cases h4 : op = 'S'
          · rw [if_pos h4] at h
            exact ih _ _ _ _ h hn hi
          · rw [if_neg h4] at h
            cases h

theorem parseCigarAux_ref_length (seq qual : List Char) :
    ∀ (toks : List (Nat × Char)) (ps pr : Int) (st st' : ParsedCigar),
      parseCigarAux seq qual toks ps pr st = .ok st' →
      0 ≤ ps → ps.toNat + cigarReadLen toks ≤ seq.length →
      st'.nopad_noinsert_seq.length = st.nopad_noinsert_seq.length + cigarRefLen toks ∧
      st'.ref_align_len = st.ref_align_len + (cigarRefLen toks : Int) := by
  intro toks
  induction toks with
  | nil =>
    intro ps pr st st' h _ _
    cases h
    simp [cigarRefLen]
  | cons hd tl ih =>
    intro ps pr st st' h hps hlen
    obtain ⟨l, op⟩ := hd
    simp only [parseCigarAux] at h
    simp only [cigarReadLen] at hlen
    by_cases h1 : op = 'M' ∨ op = 'X' ∨ op = '='
    · rw [if_pos h1] at h
      have hlen' : (ps + (l : Int)).toNat + cigarReadLen tl ≤ seq.length := by
        rw [if_pos (by tauto)] at hlen
        omega
      obtain ⟨ha, hb⟩ := ih _ _ _ _ h (by omega) hlen'
      have hslice : (pySlice seq ps (ps + (l : Int))).length = l := by
        rw [pySlice_length, pyIndex_of_nonneg hps, pyIndex_of_nonneg (by omega)]
        rw [if_pos (by tauto)] at hlen
        omega
      constructor
      · rw [ha]
        simp only [List.length_append, hslice, cigarRefLen]
        rw [if_pos (by tauto)]
        omega
      · rw [hb]
        simp only [cigarRefLen]
        rw [if_pos (by tauto)]
        push_cast
        ring
    · rw [if_neg h1] at h
      by_cases h2 : op = 'D' ∨ op = 'P' ∨ op = 'N'
      · rw [if_pos h2] at h
        have hnotread : ¬(op = 'M' ∨ op = 'X' ∨ op = '=' ∨ op = 'I' ∨ op = 'S') := by
          rcases h2 with h' | h' | h' <;> subst h' <;> decide
        have hlen' : ps.toNat + cigarReadLen tl ≤ seq.length := by
          rw [if_neg hnotread] at hlen
          omega
        obtain ⟨ha, hb⟩ := ih _ _ _ _ h hps hlen'
        constructor
        · rw [ha]
          simp only [List.length_append, List.length_replicate, cigarRefLen]
          rw [if_pos (by tauto)]
          omega
        · rw [hb]
          simp only [cigarRefLen]
          rw [if_pos (by tauto)]
          push_cast
          ring
      · rw [if_neg h2] at h
        have hopref : ¬(op = 'M' ∨ op = 'X' ∨ op = '=' ∨ op = 'D' ∨ op = 'P' ∨ op = 'N') := by
          tauto
        by_cases h3 : op = 'I'
        · rw [if_pos h3] at h
          have hlen' : (ps + (l : Int)).toNat + cigarReadLen tl ≤ seq.length := by
            rw [if_pos (by tauto)] at hlen
            omega
          obtain ⟨ha, hb⟩ := ih _ _ _ _ h (by omega) hlen'
          refine ⟨?_, ?_⟩
          · rw [ha]; simp only [cigarRefLen]; rw [if_neg hopref]; omega
          · rw [hb]; simp only [cigarRefLen]; rw [if_neg hopref]; push_cast; ring
        · rw [if_neg h3] at h
          by_cases h4 : op = 'S'
          · rw [if_pos h4] at h
            have hlen' : (ps + (l : Int)).toNat + cigarReadLen tl ≤ seq.length := by
              rw [if_pos (by tauto)] at hlen
              omega
            obtain ⟨ha, hb⟩ := ih _ _ _ _ h (by omega) hlen'
            refine ⟨?_, ?_⟩
            · rw [ha]; simp only [cigarRefLen]; rw [if_neg hopref]; omega
            · rw [hb]; simp only [cigarRefLen]; rw [if_neg hopref]; push_cast; ring
          · rw [if_neg h4] at h
            cases h

theorem parseCigarAux_bad (seq qual : List Char) :
    ∀ (toks : List (Nat × Char)) (ps pr : Int) (st : ParsedCigar),
      (∃ t ∈ toks, ¬(t.2 = 'M' ∨ t.2 = 'X' ∨ t.2 = '=' ∨ t.2 = 'D' ∨ t.2 = 'P' ∨
        t.2 = 'N' ∨ t.2 = 'I' ∨ t.2 = 'S')) →
      ∃ e, parseCigarAux seq qual toks ps pr st = .error e := by
  intro toks
  induction toks with
  | nil => intro ps pr st h; simp at h
  | cons hd tl ih =>
    intro ps pr st ⟨t, ht, hbad⟩
    obtain ⟨l, op⟩ := hd
    simp only [parseCigarAux]
    by_cases h1 : op = 'M' ∨ op = 'X' ∨ op = '='
    · rw [if_pos h1]
      refine ih _ _ _ ⟨t, ?_, hbad⟩
      rcases List.mem_cons.mp ht with he | he
      · exfalso; rw [he] at hbad; simp at hbad; tauto
      · exact he
    · rw [if_neg h1]
      by_cases h2 : op = 'D' ∨ op = 'P' ∨ op = 'N'
      · rw [if_pos h2]
        refine ih _ _ _ ⟨t, ?_, hbad⟩
        rcases List.mem_cons.mp ht with he | he
        · exfalso; rw [he] at hbad; simp at hbad; tauto
        · exact he
      · rw [if_neg h2]
        by_cases h3 : op = 'I'
        · rw [if_pos h3]
          refine ih _ _ _ ⟨t, ?_, hbad⟩
          rcases List.mem_cons.mp ht with he | he
          · exfalso; rw [he] at hbad; simp at hbad; tauto
          · exact he
        · rw [if_neg h3]
          by_cases h4 : op = 'S'
          · rw [if_pos h4]
            refine ih _ _ _ ⟨t, ?_, hbad⟩
            rcases List.mem_cons.mp ht with he | he
            · exfalso; rw [he] at hbad; simp at hbad; tauto
            · exact he
          · rw [if_neg h4]
            exact ⟨_, rfl⟩

theorem get_seq_qual_eq_parsed {r : SamRecord} {pc : ParsedCigar}
    (hparse : parseCigar r = .ok pc)
    (f1 f2 f3 : Bool) (q : Int) (ss se : Option Int) (ins : Bool) :
    get_seq_qual r f1 f2 f3 q ss se ins =
      get_seq_qual_parsed r f1 f2 f3 q ss se ins pc := by
  unfold get_seq_qual
  rw [hparse]

theorem spliceAux_skip (rs rq : List Char) (ssd sed s0 : Int) (dm : Bool) (qc : Int) :
    ∀ (inserts : List (Int × (List Char × List Char))) (last : Int) (accS accQ : List Char),
      (∀ kv ∈ inserts, ¬(ssd ≤ kv.1 ∧ kv.1 < sed)) →
      spliceAux rs rq ssd sed s0 dm qc inserts last accS accQ =
        .ok (accS ++ pySlice rs (last + 1) (rs.length : Int),
             accQ ++ pySlice rq (last + 1) (rq.length : Int)) := by
  intro inserts
  induction inserts with
  | nil => intro last accS accQ _; rfl
  | cons hd tl ih =>
    intro last accS accQ hno
    obtain ⟨k, iv⟩ := hd
    simp only [spliceAux]
    rw [if_neg (hno (k, iv) (List.mem_cons_self _ _))]
    exact ih _ _ _ (fun kv hkv => hno kv (List.mem_cons_of_mem _ hkv))

theorem spliceAux_len_eq (rs rq : List Char) (hlen : rs.length = rq.length)
    (ssd sed s0 : Int) (dm : Bool) (qc : Int) :
    ∀ (inserts : List (Int × (List Char × List Char))) (last : Int) (accS accQ : List Char),
      accS.length = accQ.length →
      (∀ kv ∈ inserts, ssd ≤ kv.1 → kv.1 < sed →
        ∃ m : List Char,
          (if dm then (maskInsertSeq kv.2.1 kv.2.2 qc).map Prod.fst else .ok kv.2.1) = .ok m ∧
          m.length = kv.2.2.length) →
      ∀ out, spliceAux rs rq ssd sed s0 dm qc inserts last accS accQ = .ok out →
        out.1.length = out.2.length := by
  intro inserts
  induction inserts with
  | nil =>
    intro last accS accQ hacc _ out hout
    simp only [spliceAux] at hout
    injection hout with h2
    rw [← h2]
    simp only [List.length_append, pySlice_length, hlen, hacc]
  | cons hd tl ih =>
    intro last accS accQ hacc hins out hout
    obtain ⟨k, iv⟩ := hd
    simp only [spliceAux] at hout
    by_cases hw : ssd ≤ k ∧ k < sed
    · rw [if_pos hw] at hout
      obtain ⟨m, hm, hmlen⟩ := hins (k, iv) (List.mem_cons_self _ _) hw.1 hw.2
      rw [hm] at hout
      simp only [Except.bind] at hout
      refine ih _ _ _ ?_ (fun kv hkv => hins kv (List.mem_cons_of_mem _ hkv)) out hout
      simp only [List.length_append, pySlice_length, hlen, hacc, hmlen]
    · rw [if_neg hw] at hout
      exact ih _ _ _ hacc (fun kv hkv => hins kv (List.mem_cons_of_mem _ hkv)) out hout

/-- Claim C5 (amended): the windowed extraction returns a (sequence, quality)
pair of equal length for every option combination except when quality
masking and insertion inclusion are both on and some insertion anchored in
the window carries a base below the cutoff (the counterexample's case,
where the dropped bases make the quality string longer).  The record is
assumed well-formed in that its sequence and quality strings have equal
length. -/
theorem c5_equal_lengths (r : SamRecord)
    (f1 f2 mask : Bool) (q : Int) (ss se : Option Int) (inso : Bool)
    (out : List Char × List Char)
    (hq : r.qual.length = r.seq.length)
    (hins : ∀ pc, parseCigar r = .ok pc → mask = true → inso = true →
      ∀ kv ∈ pc.ref_pos_to_insert_seq_qual,
        (if truthy ss then oval ss else 1) ≤ kv.1 →
        kv.1 < (if truthy se then oval se else r.ref_len) →
        ∀ c ∈ kv.2.2, q ≤ (c.toNat : Int) - PHRED_SANGER_OFFSET)
    (hok : get_seq_qual r f1 f2 mask q ss se inso = .ok out) :
    out.1.length = out.2.length := by
  cases hp : parseCigar r with
  | error e => unfold get_seq_qual at hok; rw [hp] at hok; cases hok
  | ok pc =>
    rw [get_seq_qual_eq_parsed hp f1 f2 mask q ss se inso] at hok
    obtain ⟨hnp, hinsLen⟩ := parseCigarAux_sym r.seq r.qual hq r.cigar 0 r.pos emptyParsed pc hp
      (by simp [emptyParsed]) (by simp [emptyParsed])
    unfold get_seq_qual_parsed at hok
    split at hok
    · cases hok
    · split at hok
      · cases hok
      · split at hok
        · split at hok
          · injection hok with h2
            rw [← h2]
            simp
          · split at hok
            · injection hok with h2
              rw [← h2]
              simp
            · injection hok with h2
              rw [← h2]
              exact hnp.symm
        · simp only [] at hok
          split at hok
          · cases hok
          · rename_i rs1 heq1
            have hrseq : rs1.length =
                (pySlice pc.nopad_noinsert_qual
                  (max (get_seq_start_wrt_ref r)
                      (if truthy ss then oval ss else 1) - get_seq_start_wrt_ref r)
                  (pc.ref_align_len - 1 -
                    (get_seq_end_wrt_ref r pc -
                      min (get_seq_end_wrt_ref r pc)
                        (if truthy se then oval se else r.ref_len)) + 1)).length := by
              have hcongr := pySlice_length_congr (s := pc.nopad_noinsert_seq)
                (t := pc.nopad_noinsert_qual) hnp.symm
                (max (get_seq_start_wrt_ref r)
                    (if truthy ss then oval ss else 1) - get_seq_start_wrt_ref r)
                (pc.ref_align_len - 1 -
                  (get_seq_end_wrt_ref r pc -
                    min (get_seq_end_wrt_ref r pc)
                      (if truthy se then oval se else r.ref_len)) + 1)
              cases mask with
              | false =>
                simp only [if_neg Bool.false_ne_true] at heq1
                injection heq1 with h3
                rw [← h3]
                exact hcongr
              | true =>
                simp only [if_pos rfl] at heq1
                rw [maskLowQual_ok_length _ _ _ _ heq1]
                exact hcongr
            split at hok
            · cases hok
            · rename_i rsq heq2
              have hrsq : rsq.1.length = rsq.2.length := by
                cases inso with
                | false =>
                  simp only [if_neg Bool.false_ne_true] at heq2
                  injection heq2 with h3
                  rw [← h3]
                  exact hrseq
                | true =>
                  simp only [if_pos rfl] at heq2
                  refine spliceAux_len_eq _ _ hrseq _ _ _ mask q
                    pc.ref_pos_to_insert_seq_qual (-1) [] [] rfl ?_ rsq heq2
                  intro kv hkv hk1 hk2
                  cases mask with
                  | false =>
                    exact ⟨kv.2.1, by simp, hinsLen kv hkv⟩
                  | true =>
                    refine ⟨kv.2.1, ?_, hinsLen kv hkv⟩
                    rw [if_pos rfl,
                      maskInsertSeq_all_high kv.2.1 kv.2.2 q (le_of_eq (hinsLen kv hkv))
                        (hins pc hp rfl rfl kv hkv hk1 hk2)]
                    rfl
              split at hok
              · injection hok with h2
                rw [← h2]
                simp only [List.length_append, List.length_replicate, hrsq]
              · split at hok
                · injection hok with h2
                  rw [← h2]
                  simp only [List.length_append, List.length_replicate, hrsq]
                · injection hok with h2
                  rw [← h2]
                  exact hrsq

theorem pySlice_neg_one_add_one (s : List α) : pySlice s (-1 + 1) (s.length : Int) = s := by
  have h : (-1 : Int) + 1 = 0 := by norm_num
  rw [h, pySlice_all]

/-- Witness for `c5_equal_lengths`: the extraction on the `2M1I2M` record
with no options returns the 4-base clip and its 4-character quality. -/
theorem c5_equal_lengths_witness :
    (("AAGG".toList, "IIII".toList) : List Char × List Char).1.length =
      (("AAGG".toList, "IIII".toList) : List Char × List Char).2.length :=
  c5_equal_lengths c3rec false false false 10 none none false
    ("AAGG".toList, "IIII".toList) (by decide)
    (fun _ _ hmask => by cases hmask) rfl

/-- Claim C3 (amended): pad-to-window extraction returns a sequence of length
exactly windowEnd - windowStart + 1 for 1-based bounds with
windowStart ≤ windowEnd, regardless of overlap and of the quality cutoff,
provided insertions are excluded or no insertion anchors inside
[windowStart, windowEnd) — the counterexample shows an anchored insertion
lengthens the row.  The record is well-formed: 1-based position, sequence
long enough for its CIGAR, quality of equal length. -/
theorem c3_pad_to_window_length (r : SamRecord) (pc : ParsedCigar)
    (mask : Bool) (q : Int) (ssi sei : Int) (inso : Bool)
    (res : List Char × List Char)
    (hparse : parseCigar r = .ok pc)
    (hss : 1 ≤ ssi) (hle : ssi ≤ sei)
    (hqlen : r.qual.length = r.seq.length)
    (hslen : cigarReadLen r.cigar ≤ r.seq.length)
    (hnoins : inso = false ∨
      ∀ kv ∈ pc.ref_pos_to_insert_seq_qual, ¬(ssi ≤ kv.1 ∧ kv.1 < sei))
    (hok : get_seq_qual r false true mask q (some ssi) (some sei) inso = .ok res) :
    res.1.length = (sei - ssi + 1).toNat := by
  have hts : truthy (some ssi) = true := by simp [truthy]; omega
  have hte : truthy (some sei) = true := by simp [truthy]; omega
  obtain ⟨hnplen, hralen⟩ := parseCigarAux_ref_length r.seq r.qual r.cigar 0 r.pos emptyParsed pc
    hparse le_rfl (by simpa [emptyParsed] using hslen)
  have hralen' : pc.ref_align_len = (pc.nopad_noinsert_seq.length : Int) := by
    rw [hralen, hnplen]
    simp [emptyParsed]
  obtain ⟨hnp, _⟩ := parseCigarAux_sym r.seq r.qual hqlen r.cigar 0 r.pos emptyParsed pc hparse
    (by simp [emptyParsed]) (by simp [emptyParsed])
  rw [get_seq_qual_eq_parsed hparse] at hok
  unfold get_seq_qual_parsed at hok
  split at hok
  · cases hok
  · split at hok
    · cases hok
    · split at hok
      · split at hok
        · rename_i hf
          exact absurd hf (by decide)
        · split at hok
          · injection hok with h2
            rw [← h2]
            simp [oval]
          · rename_i hf
            exact absurd rfl hf
      · rename_i hov
        simp only [] at hok
        simp only [oval, get_seq_start_wrt_ref, get_seq_end_wrt_ref] at hok hov
        have hov2 : ssi ≤ r.pos + pc.ref_align_len - 1 ∧ r.pos ≤ sei := by
          simp only [hts, hte, oval, Bool.true_and, Bool.or_eq_true,
            decide_eq_true_eq, not_or] at hov
          omega
        split at hok
        · cases hok
        · rename_i rs1 heq1
          have hrs1 : rs1.length =
              (pySlice pc.nopad_noinsert_seq (max r.pos ssi - r.pos)
                (pc.ref_align_len - 1 -
                  (r.pos + pc.ref_align_len - 1 -
                    min (r.pos + pc.ref_align_len - 1) sei) + 1)).length := by
            cases mask with
            | false =>
              rw [if_neg (by decide)] at heq1
              injection heq1 with h3
              rw [← h3]
            | true =>
              rw [if_pos rfl] at heq1
              exact maskLowQual_ok_length _ _ _ _ heq1
          split at hok
          · cases hok
          · rename_i rsq heq2
            have hrsq : rsq.1.length = rs1.length := by
              cases inso with
              | false =>
                rw [if_neg (by decide)] at heq2
                injection heq2 with h3
                rw [← h3]
              | true =>
                rw [if_pos rfl] at heq2
                rcases hnoins with hcontra | hno
                · cases hcontra
                · rw [spliceAux_skip _ _ _ _ _ _ _ _ _ _ _ hno] at heq2
                  injection heq2 with h3
                  rw [← h3]
                  simp only [List.nil_append, pySlice_neg_one_add_one]
            split at hok
            · rename_i hf
              exact absurd hf (by decide)
            · split at hok
              · injection hok with h2
                rw [← h2]
                simp only [List.length_append, List.length_replicate, hrsq, hrs1,
                  pySlice_length]
                have hA0 : (0 : Int) ≤ max r.pos ssi - r.pos := by omega
                have hB1 : (0 : Int) ≤ pc.ref_align_len - 1 -
                    (r.pos + pc.ref_align_len - 1 -
                      min (r.pos + pc.ref_align_len - 1) sei) + 1 := by omega
                rw [pyIndex_of_nonneg hB1, pyIndex_of_nonneg hA0]
                omega
              · rename_i hf
                exact absurd trivial hf

/-- Witness for `c3_pad_to_window_length`: the `2M1I2M` record over window
[2, 9] with masking on and insertions off returns 8 = 9 - 2 + 1 characters. -/
theorem c3_pad_to_window_witness :
    ((['A', 'G', 'G', '-', '-', '-', '-', '-'],
      ['I', 'I', 'I', ' ', ' ', ' ', ' ', ' ']) : List Char × List Char).1.length =
      ((9 : Int) - 2 + 1).toNat :=
  c3_pad_to_window_length c3rec
    { nopad_noinsert_seq := "AAGG".toList
      nopad_noinsert_qual := "IIII".toList
      ref_pos_to_insert_seq_qual := [(2, ("C".toList, "I".toList))]
      ref_align_len := 4
      seq_align_len := 5 }
    true 10 2 9 false
    (['A', 'G', 'G', '-', '-', '-', '-', '-'],
     ['I', 'I', 'I', ' ', ' ', ' ', ' ', ' '])
    rfl (by decide) (by decide) (by decide) (by decide)
    (Or.inl rfl) rfl

/-- Claim C1: the code keys each recorded insertion by the value of its
reference-position variable minus one, but that variable is not advanced on
deletion/padding/reference-skip tokens.  On `2M3D2I2M` starting at reference
position 1, the insertion sits immediately after reference position
1 + 2 + 3 - 1 = 5, yet the decoded insertion table keys it at 2.  This
contradicts the claim (and the source's own comments calling the variable a
reference position), so the insertion is anchored before the deleted bases
rather than past them. -/
theorem c1_insertion_anchor_not_past_deletion :
    (parseCigar c1rec).toOption.map
        (fun pc => pc.ref_pos_to_insert_seq_qual.map Prod.fst) = some [2] ∧
    (2 : Int) ≠ 1 + 2 + 3 - 1 := by
  constructor
  · rfl
  · decide

/-- Claim C4 (counterexample): with a pending paired-flagged record `hA`
(query name 1) followed by an unpaired record `hB` (query name 2), both with
mapping quality 99 ≥ cutoff 10, the stream yields only `hA` alone; `hB` is
silently discarded instead of being re-evaluated (which would have emitted it
as a singleton).  This falsifies the claim that the current record is never
silently discarded. -/
theorem c4_counterexample_discards_current :
    record_iter 10 [hA, hB] none = .ok [((some hA, none) : HPair)] ∧
    ((none, some hB) : HPair) ∉ [((some hA, none) : HPair)] := by
  constructor
  · rfl
  · decide

/-- Claim C4 (amended): when a record `m` arrives whose query name differs
from the pending mate `p`, the code emits `p` alone and discards `m` whenever
`p` clears the mapping-quality cutoff; when `p` fails the cutoff nothing is
emitted and `m` becomes the new pending mate only if its own mate is flagged
mapped (otherwise `p` stays pending and `m` is discarded).  In no case is `m`
emitted or re-evaluated as a fresh record. -/
theorem c4_mismatch_step (cutoff : Int) (p m : HRec)
    (href : p.mateMappedRef = true) (hq : p.qname ≠ m.qname) :
    riStep cutoff (some p) m =
      (if p.mapq ≥ cutoff then .ok (none, some ((some p, none) : HPair))
       else if m.mateMapped then .ok (some m, none)
       else .ok (some p, none)) := by
  simp [riStep, href, hq]

/-- Witness for `c4_mismatch_step` at the concrete records `hA`, `hB` and
cutoff 10. -/
theorem c4_mismatch_step_witness :
    riStep 10 (some hA) hB =
      (if hA.mapq ≥ 10 then .ok (none, some ((some hA, none) : HPair))
       else if hB.mateMapped then .ok (some hB, none)
       else .ok (some hA, none)) :=
  c4_mismatch_step 10 hA hB (by decide) (by decide)

/-- Claim C6: a CIGAR containing a token whose operator is outside
{M, X, =, D, P, N, I, S} makes the decode fail with the unsupported-token
error; the `Except` result carries no decoded output and parsing never
proceeds past the bad token. -/
theorem c6_unsupported_op_fails (r : SamRecord) (l : Nat) (op : Char)
    (hmem : (l, op) ∈ r.cigar)
    (hop : ¬(op = 'M' ∨ op = 'X' ∨ op = '=' ∨ op = 'D' ∨ op = 'P' ∨
      op = 'N' ∨ op = 'I' ∨ op = 'S')) :
    ∃ e, parseCigar r = .error e := by
  unfold parseCigar
  exact parseCigarAux_bad r.seq r.qual r.cigar 0 r.pos emptyParsed ⟨(l, op), hmem, hop⟩

/-- Witness for `c6_unsupported_op_fails`: a record whose CIGAR holds the
unsupported operator `Q`. -/
theorem c6_unsupported_op_witness :
    ∃ e, parseCigar
      { ref_len := 5, pos := 1, seq := "AA".toList, qual := "II".toList,
        cigar := [(2, 'Q')] } = .error e :=
  c6_unsupported_op_fails _ 2 'Q' (by decide) (by decide)

/-- Claim C7: after a successful decode, the extraction rejects malformed
window bounds first — both bounds given (truthy) with start above end raises
the invalid-range error, and exactly one bound given raises the
incomplete-range error; in either case no sequence is returned. -/
theorem c7_window_bounds_validation (r : SamRecord) (pc : ParsedCigar)
    (f1 f2 f3 : Bool) (q : Int) (ss se : Option Int) (ins : Bool)
    (hparse : parseCigar r = .ok pc) :
    ((truthy ss && truthy se && decide (oval ss > oval se)) = true →
       get_seq_qual r f1 f2 f3 q ss se ins = .error "slice start must be <= slice end") ∧
    (((!truthy ss && truthy se) || (truthy ss && !truthy se)) = true →
       get_seq_qual r f1 f2 f3 q ss se ins =
         .error "Either define both slice start and end or don't define either") := by
  rw [get_seq_qual_eq_parsed hparse]
  constructor
  · intro h
    unfold get_seq_qual_parsed
    rw [if_pos h]
  · intro h
    have h1 : (truthy ss && truthy se && decide (oval ss > oval se)) = false := by
      cases hss : truthy ss <;> cases hse : truthy se <;> simp_all
    unfold get_seq_qual_parsed
    rw [if_neg (by simp [h1]), if_pos h]

/-- Witness for `c7_window_bounds_validation`: on an empty-CIGAR record,
window bounds 5 > 3 raise the invalid-range error and a lone end bound 7
raises the incomplete-range error. -/
theorem c7_window_bounds_witness :
    get_seq_qual emptyCigarRec false false false 10 (some 5) (some 3) false =
      .error "slice start must be <= slice end" ∧
    get_seq_qual emptyCigarRec false false false 10 none (some 7) false =
      .error "Either define both slice start and end or don't define either" :=
  ⟨(c7_window_bounds_validation emptyCigarRec emptyParsed false false false 10
      (some 5) (some 3) false rfl).1 (by decide),
   (c7_window_bounds_validation emptyCigarRec emptyParsed false false false 10
      none (some 7) false rfl).2 (by decide)⟩

/-- Claim C9: a window bound equal to 0 is indistinguishable from an absent
bound — with start 0 and a positive end the extraction raises the
incomplete-range error even though both arguments were supplied, and with
both bounds 0 it behaves exactly as with no bounds at all (defaulting to 1
and the reference length). -/
theorem c9_zero_bound_is_absent (r : SamRecord) (pc : ParsedCigar)
    (f1 f2 f3 : Bool) (q : Int) (e : Int) (ins : Bool)
    (hparse : parseCigar r = .ok pc) (he : 0 < e) :
    get_seq_qual r f1 f2 f3 q (some 0) (some e) ins =
      .error "Either define both slice start and end or don't define either" ∧
    get_seq_qual r f1 f2 f3 q (some 0) (some 0) ins =
      get_seq_qual r f1 f2 f3 q none none ins := by
  constructor
  · rw [get_seq_qual_eq_parsed hparse]
    have hte : truthy (some e) = true := by
      simp only [truthy, bne_iff_ne, ne_eq, decide_eq_true_eq]
      omega
    unfold get_seq_qual_parsed
    rw [if_neg (by simp [truthy]), if_pos (by simp [truthy]; omega)]
  · rfl

/-- Witness for `c9_zero_bound_is_absent` on the empty-CIGAR record with end
bound 7. -/
theorem c9_zero_bound_witness :
    get_seq_qual emptyCigarRec false false false 10 (some 0) (some 7) false =
      .error "Either define both slice start and end or don't define either" ∧
    get_seq_qual emptyCigarRec false false false 10 (some 0) (some 0) false =
      get_seq_qual emptyCigarRec false false false 10 none none false :=
  c9_zero_bound_is_absent emptyCigarRec emptyParsed false false false 10 7 false rfl
    (by decide)

/-- Claim C3 (counterexample): on a record with CIGAR `2M1I2M` at position 1,
pad-to-window extraction over window [1, 4] with insertions included returns
a sequence of length 5, not windowEnd - windowStart + 1 = 4, because the
spliced-in inserted base lengthens the row. -/
theorem c3_counterexample_insertion_lengthens :
    (get_seq_qual c3rec false true false 10 (some 1) (some 4) true).toOption.map
        (fun p => p.1.length) = some 5 ∧
    (5 : Nat) ≠ 4 - 1 + 1 := by
  exact ⟨rfl, by decide⟩

/-- Claim C5 (counterexample): on a record whose two inserted bases carry one
low quality, masking with cutoff 10 while including insertions drops the
low-quality inserted base from the sequence but appends the full insert
quality string, returning strings of lengths 5 and 6. -/
theorem c5_counterexample_unequal_lengths :
    (get_seq_qual c5rec false false true 10 (some 1) (some 4) true).toOption.map
        (fun p => (p.1.length, p.2.length)) = some (5, 6) ∧
    (5 : Nat) ≠ 6 := by
  exact ⟨rfl, by decide⟩

theorem write_seq_hyphen_eval :
    write_seq ['a', '-', 'b'] ['A'] 1 0 = some (['a', '_', 'b'], ['A']) := by
  have hN : List.count 'N' ['A'] = 0 := rfl
  have hG : List.count '-' ['A'] = 0 := rfl
  unfold write_seq
  rw [if_pos (by constructor <;> norm_num [hN, hG])]
  rfl

/-- Claim C8 (counterexample): the header written for query name `a-b` is
`a_b` — the regex `NEWICK_NAME_RE` also replaces hyphens — while the claim's
six-character replacement leaves `a-b` unchanged. -/
theorem c8_counterexample_hyphen :
    (write_seq ['a', '-', 'b'] ['A'] 1 0).map Prod.fst = some ['a', '_', 'b'] ∧
    some (['a', '_', 'b'] : List Char) ≠ some (claimHeaderSixChars ['a', '-', 'b']) := by
  refine ⟨?_, by decide⟩
  rw [write_seq_hyphen_eval]
  rfl

/-- Claim C8 (amended): every header written to a window FASTA is the query
name with exactly the characters `: ; - ( ) [ ]` (the hyphen included)
replaced by underscore and every other character left unchanged. -/
theorem c8_amended_header (name seq : List Char) (pN bt : ℚ) (h s : List Char)
    (hw : write_seq name seq pN bt = some (h, s)) :
    h.length = name.length ∧
    ∀ i : Nat, i < name.length →
      h.getD i ' ' = (if name.getD i ' ' ∈ NEWICK_SPECIAL then '_'
                      else name.getD i ' ') := by
  have hh : h = newick_nice_qname name := by
    unfold write_seq at hw
    split at hw
    · injection hw with hp
      exact ((Prod.mk.inj hp).1).symm
    · cases hw
  subst hh
  constructor
  · simp [newick_nice_qname]
  · intro i hi
    simp [newick_nice_qname, List.getD_eq_getElem?_getD, List.getElem?_map,
      List.getElem?_eq_getElem hi]

/-- Witness for `c8_amended_header` at query name `a-b`. -/
theorem c8_amended_header_witness :
    (['a', '_', 'b'] : List Char).length = (['a', '-', 'b'] : List Char).length ∧
    ∀ i : Nat, i < (['a', '-', 'b'] : List Char).length →
      (['a', '_', 'b'] : List Char).getD i ' ' =
        (if (['a', '-', 'b'] : List Char).getD i ' ' ∈ NEWICK_SPECIAL then '_'
         else (['a', '-', 'b'] : List Char).getD i ' ') :=
  c8_amended_header ['a', '-', 'b'] ['A'] 1 0 ['a', '_', 'b'] ['A'] write_seq_hyphen_eval

end Umberjack

namespace MPIPool

theorem wait_spec (okf : Nat → Bool) (c : Nat) (st : PoolState) (h : st.busy ≠ []) :
    (wait_replica_done okf c st).1.busy.length = st.busy.length - 1 ∧
    (wait_replica_done okf c st).1.available.length = st.available.length + 1 ∧
    (busyJobs (wait_replica_done okf c st).1 ++
      compEvs (wait_replica_done okf c st).2).Perm (busyJobs st) ∧
    dispEvs (wait_replica_done okf c st).2 = [] ∧
    termCount (wait_replica_done okf c st).2 = 0 := by
  have hlen : 0 < st.busy.length := List.length_pos.mpr h
  unfold wait_replica_done
  rw [if_neg (by simpa [List.isEmpty_iff] using h)]
  have hklt : c % st.busy.length < st.busy.length := Nat.mod_lt _ hlen
  have hgd : st.busy.getD (c % st.busy.length) (0, 0) =
      st.busy.get ⟨c % st.busy.length, hklt⟩ := by
    rw [List.getD_eq_getElem?_getD, List.getElem?_eq_getElem hklt]
    rfl
  refine ⟨?_, by simp, ?_, rfl, rfl⟩
  · simp [List.length_eraseIdx, hklt]
  · simp only [busyJobs, compEvs, List.filterMap, hgd]
    rw [map_eraseIdx]
    refine (List.perm_append_singleton _ _).trans ?_
    have hmap : (st.busy.get ⟨c % st.busy.length, hklt⟩).2 =
        (st.busy.map Prod.snd).get ⟨c % st.busy.length, by simpa using hklt⟩ := by
      simp [List.get_eq_getElem, List.getElem_map]
    rw [hmap]
    exact get_cons_eraseIdx_perm (st.busy.map Prod.snd) (c % st.busy.length)
      (by simpa using hklt)

end MPIPool

namespace MPIPool

theorem dispEvs_append (a b : List Ev) : dispEvs (a ++ b) = dispEvs a ++ dispEvs b := by
  simp [dispEvs]

theorem compEvs_append (a b : List Ev) : compEvs (a ++ b) = compEvs a ++ compEvs b := by
  simp [compEvs]

theorem termCount_append (a b : List Ev) : termCount (a ++ b) = termCount a + termCount b := by
  simp [termCount]

theorem dispEvs_single_disp (r j : Nat) : dispEvs [Ev.disp r j] = [j] := rfl

theorem compEvs_single_disp (r j : Nat) : compEvs [Ev.disp r j] = [] := rfl

theorem termCount_single_disp (r j : Nat) : termCount [Ev.disp r j] = 0 := rfl

theorem dispEvs_terms (l : List Nat) : dispEvs (l.map Ev.term) = [] := by
  induction l with
  | nil => rfl
  | cons hd tl ih => simp [dispEvs, List.filterMap_cons, ih]

theorem compEvs_terms (l : List Nat) : compEvs (l.map Ev.term) = [] := by
  induction l with
  | nil => rfl
  | cons hd tl ih => simp [compEvs, List.filterMap_cons, ih]

theorem termCount_terms (l : List Nat) : termCount (l.map Ev.term) = l.length := by
  induction l with
  | nil => rfl
  | cons hd tl ih => simp [termCount, List.countP_cons, ih]

theorem multiset_shuffle (X V U BW Jm R : Multiset Nat) (h : X + V = BW + Jm + R) :
    X + (U + V) = BW + U + (Jm + R) := by
  calc X + (U + V) = X + V + U := by abel
    _ = BW + Jm + R + U := by rw [h]
    _ = BW + U + (Jm + R) := by abel

theorem runJobs_spec (okf : Nat → Bool) (choice : Nat → Nat) (N : Nat) (hN : 1 ≤ N) :
    ∀ (jobs : List Nat) (st : PoolState) (t : Nat),
      st.available.length + st.busy.length = N →
      (runJobs okf choice jobs st t).1.available.length +
        (runJobs okf choice jobs st t).1.busy.length = N ∧
      dispEvs (runJobs okf choice jobs st t).2.2 = jobs ∧
      (busyJobs (runJobs okf choice jobs st t).1 ++
        compEvs (runJobs okf choice jobs st t).2.2).Perm (busyJobs st ++ jobs) ∧
      termCount (runJobs okf choice jobs st t).2.2 = 0 := by
  intro jobs
  induction jobs with
  | nil =>
    intro st t hInv
    simp [runJobs, dispEvs, compEvs, termCount, hInv]
  | cons j rest ih =>
    intro st t hInv
    simp only [runJobs]
    by_cases hE : st.available.isEmpty
    · rw [if_pos hE]
      have hav : st.available = [] := List.isEmpty_iff.mp hE
      have hbne : st.busy ≠ [] := by
        intro hb
        rw [hav, hb] at hInv
        simp at hInv
        omega
      obtain ⟨hw1, hw2, hw3, hw4, hw5⟩ := wait_spec okf (choice t) st hbne
      simp only []
      split
      · rename_i heq
        rw [heq] at hw2
        simp at hw2
      · rename_i rank availRest heq
        have hlen : availRest.length + 1 =
            (wait_replica_done okf (choice t) st).1.available.length := by
          rw [heq]
          simp
        have hInv2 : availRest.length +
            ((wait_replica_done okf (choice t) st).1.busy ++ [(rank, j)]).length = N := by
          simp only [List.length_append, List.length_cons, List.length_nil]
          have hbpos : 0 < st.busy.length := List.length_pos.mpr hbne
          omega
        obtain ⟨ih1, ih2, ih3, ih4⟩ := ih
          { available := availRest,
            busy := (wait_replica_done okf (choice t) st).1.busy ++ [(rank, j)] }
          (t + 1) hInv2
        have hbst2 : busyJobs
            ({ available := availRest,
               busy := (wait_replica_done okf (choice t) st).1.busy ++ [(rank, j)] } :
              PoolState) =
            busyJobs (wait_replica_done okf (choice t) st).1 ++ [j] := by
          simp [busyJobs]
        rw [hbst2] at ih3
        refine ⟨ih1, ?_, ?_, ?_⟩
        · rw [dispEvs_append, dispEvs_append, hw4, ih2, dispEvs_single_disp]
          rfl
        · rw [compEvs_append, compEvs_append, compEvs_single_disp, List.append_nil]
          rw [show j :: rest = [j] ++ rest from rfl]
          rw [← Multiset.coe_eq_coe]
          have h1 := Multiset.coe_eq_coe.mpr ih3
          have h2 := Multiset.coe_eq_coe.mpr hw3
          simp only [← Multiset.coe_add] at h1 h2 ⊢
          rw [← h2]
          exact multiset_shuffle _ _ _ _ _ _ h1
        · rw [termCount_append, termCount_append, hw5, ih4, termCount_single_disp]
    · rw [if_neg hE]
      simp only []
      split
      · rename_i heq
        exact absurd heq (by simpa [List.isEmpty_iff] using hE)
      · rename_i rank availRest heq
        have hInv2 : availRest.length + (st.busy ++ [(rank, j)]).length = N := by
          have hlen : availRest.length + 1 = st.available.length := by
            rw [heq]
            simp
          simp only [List.length_append, List.length_cons, List.length_nil]
          omega
        obtain ⟨ih1, ih2, ih3, ih4⟩ := ih
          { available := availRest, busy := st.busy ++ [(rank, j)] } t hInv2
        have hbst2 : busyJobs
            ({ available := availRest, busy := st.busy ++ [(rank, j)] } : PoolState) =
            busyJobs st ++ [j] := by
          simp [busyJobs]
        rw [hbst2] at ih3
        refine ⟨ih1, ?_, ?_, ?_⟩
        · rw [dispEvs_append, dispEvs_append, ih2, dispEvs_single_disp]
          rfl
        · rw [compEvs_append, compEvs_append, compEvs_single_disp, List.append_nil]
          rw [List.append_assoc] at ih3
          simpa [compEvs] using ih3
        · rw [termCount_append, termCount_append, ih4, termCount_single_disp]
          rfl

theorem drainAux_spec (okf : Nat → Bool) (choice : Nat → Nat) (N : Nat) :
    ∀ (fuel : Nat) (st : PoolState) (t : Nat),
      st.busy.length ≤ fuel →
      st.available.length + st.busy.length = N →
      (drainAux okf choice fuel st t).1.busy = [] ∧
      (compEvs (drainAux okf choice fuel st t).2.2).Perm (busyJobs st) ∧
      dispEvs (drainAux okf choice fuel st t).2.2 = [] ∧
      termCount (drainAux okf choice fuel st t).2.2 = 0 := by
  intro fuel
  induction fuel with
  | zero =>
    intro st t hle _
    have hb : st.busy = [] := List.length_eq_zero.mp (by omega)
    simp [drainAux, hb, busyJobs, compEvs, dispEvs, termCount]
  | succ n ih =>
    intro st t hle hInv
    simp only [drainAux]
    by_cases hE : st.busy.isEmpty
    · rw [if_pos hE]
      have hb : st.busy = [] := List.isEmpty_iff.mp hE
      simp [hb, busyJobs, compEvs, dispEvs, termCount]
    · rw [if_neg hE]
      have hbne : st.busy ≠ [] := by simpa [List.isEmpty_iff] using hE
      have hbpos : 0 < st.busy.length := List.length_pos.mpr hbne
      obtain ⟨hw1, hw2, hw3, hw4, hw5⟩ := wait_spec okf (choice t) st hbne
      simp only []
      obtain ⟨ih1, ih2, ih3, ih4⟩ := ih (wait_replica_done okf (choice t) st).1 (t + 1)
        (by omega) (by omega)
      refine ⟨ih1, ?_, ?_, ?_⟩
      · rw [compEvs_append]
        rw [← Multiset.coe_eq_coe]
        have h1 := Multiset.coe_eq_coe.mpr ih2
        have h2 := Multiset.coe_eq_coe.mpr hw3
        simp only [← Multiset.coe_add] at h2 ⊢
        rw [h1, ← h2]
        abel
      · rw [dispEvs_append, hw4, ih3]
        rfl
      · rw [termCount_append, hw5, ih4]

theorem launch_trace_spec (jobs : List Nat) (numReplicas : Nat)
    (okf : Nat → Bool) (choice : Nat → Nat) (hN : 1 ≤ numReplicas) :
    dispEvs (launch_wait_replicas jobs numReplicas okf choice) = jobs ∧
    (compEvs (launch_wait_replicas jobs numReplicas okf choice)).Perm jobs ∧
    termCount (launch_wait_replicas jobs numReplicas okf choice) = numReplicas ∧
    ∃ pre, launch_wait_replicas jobs numReplicas okf choice =
        pre ++ (List.range' 1 numReplicas).map Ev.term ∧
      termCount pre = 0 ∧ (compEvs pre).Perm jobs := by
  unfold launch_wait_replicas
  simp only []
  have hInit : (List.range' 1 numReplicas).length + ([] : List (Nat × Nat)).length =
      numReplicas := by simp
  obtain ⟨hr1, hr2, hr3, hr4⟩ := runJobs_spec okf choice numReplicas hN jobs
    { available := List.range' 1 numReplicas, busy := [] } 0 hInit
  obtain ⟨hd1, hd2, hd3, hd4⟩ := drainAux_spec okf choice numReplicas
    (runJobs okf choice jobs
      { available := List.range' 1 numReplicas, busy := [] } 0).1.busy.length
    (runJobs okf choice jobs
      { available := List.range' 1 numReplicas, busy := [] } 0).1
    (runJobs okf choice jobs
      { available := List.range' 1 numReplicas, busy := [] } 0).2.1
    le_rfl hr1
  have hcpre : (compEvs
      ((runJobs okf choice jobs
          { available := List.range' 1 numReplicas, busy := [] } 0).2.2 ++
        (drainAux okf choice
          (runJobs okf choice jobs
            { available := List.range' 1 numReplicas, busy := [] } 0).1.busy.length
          (runJobs okf choice jobs
            { available := List.range' 1 numReplicas, busy := [] } 0).1
          (runJobs okf choice jobs
            { available := List.range' 1 numReplicas, busy := [] } 0).2.1).2.2)).Perm
      jobs := by
    rw [compEvs_append]
    have hbase : busyJobs
        ({ available := List.range' 1 numReplicas, busy := [] } : PoolState) = [] := rfl
    rw [hbase] at hr3
    rw [← Multiset.coe_eq_coe]
    have h1 := Multiset.coe_eq_coe.mpr hr3
    have h2 := Multiset.coe_eq_coe.mpr hd2
    simp only [← Multiset.coe_add] at h1 ⊢
    simp only [Multiset.coe_nil, zero_add] at h1
    rw [h2, add_comm]
    exact h1
  refine ⟨?_, ?_, ?_, ?_⟩
  · rw [dispEvs_append, dispEvs_append, hr2, hd3, dispEvs_terms]
    simp
  · rw [compEvs_append, compEvs_terms, List.append_nil]
    exact hcpre
  · rw [termCount_append, termCount_append, hr4, hd4, termCount_terms]
    simp
  · refine ⟨_, rfl, ?_, hcpre⟩
    rw [termCount_append, hr4, hd4]

/-- Claim C2: for a run of the pool with M independent jobs and N replicas
(1 ≤ N ≤ M) and any completion order, the trace of the primary dispatches
exactly the job sequence (each job to exactly one replica), observes exactly
one completion per job (success invoking the callback or an error logged
without aborting, per the completion event's flag), sends exactly N
terminate messages, and the terminates come only after every job's
completion has been accounted for. -/
theorem c2_pool_accounting (jobs : List Nat) (numReplicas : Nat)
    (okf : Nat → Bool) (choice : Nat → Nat)
    (hN : 1 ≤ numReplicas) (_hNM : numReplicas ≤ jobs.length) :
    dispEvs (launch_wait_replicas jobs numReplicas okf choice) = jobs ∧
    (compEvs (launch_wait_replicas jobs numReplicas okf choice)).Perm jobs ∧
    termCount (launch_wait_replicas jobs numReplicas okf choice) = numReplicas ∧
    ∃ pre, launch_wait_replicas jobs numReplicas okf choice =
        pre ++ (List.range' 1 numReplicas).map Ev.term ∧
      termCount pre = 0 ∧ (compEvs pre).Perm jobs :=
  launch_trace_spec jobs numReplicas okf choice hN

/-- Witness for `c2_pool_accounting`: 5 jobs on 2 replicas where job 33's
worker raises, under the first-completes-first choice. -/
theorem c2_pool_accounting_witness :
    dispEvs (launch_wait_replicas [11, 22, 33, 44, 55] 2 (fun j => j != 33) (fun _ => 0)) =
      [11, 22, 33, 44, 55] ∧
    (compEvs (launch_wait_replicas [11, 22, 33, 44, 55] 2 (fun j => j != 33)
      (fun _ => 0))).Perm [11, 22, 33, 44, 55] ∧
    termCount (launch_wait_replicas [11, 22, 33, 44, 55] 2 (fun j => j != 33)
      (fun _ => 0)) = 2 ∧
    ∃ pre, launch_wait_replicas [11, 22, 33, 44, 55] 2 (fun j => j != 33) (fun _ => 0) =
        pre ++ (List.range' 1 2).map Ev.term ∧
      termCount pre = 0 ∧ (compEvs pre).Perm [11, 22, 33, 44, 55] :=
  c2_pool_accounting [11, 22, 33, 44, 55] 2 (fun j => j != 33) (fun _ => 0)
    (by decide) (by decide)

/-- Claim C10: a replica's receive loop stops only at the first
terminate-tagged message — every earlier message is executed as work
whatever its tag, replying success-tagged on normal return and error-tagged
on a raise — and on the primary side the callback is invoked exactly for
replies whose tag differs from the error tag. -/
theorem c10_tag_dispatch (func : Nat → Except String Nat) (msgs : List (Nat × Nat))
    (tag : Nat) (htag : tag ≠ ERR_TAG) :
    replica_work func msgs =
      (msgs.takeWhile (fun m => m.1 != TAG_TERMINATE)).map
        (fun m => work_reply func m.2) ∧
    callback_invoked tag = true ∧
    callback_invoked ERR_TAG = false := by
  refine ⟨?_, ?_, ?_⟩
  · induction msgs with
    | nil => rfl
    | cons hd tl ih =>
      obtain ⟨t, p⟩ := hd
      by_cases ht : t = TAG_TERMINATE
      · subst ht
        simp [replica_work, List.takeWhile]
      · simp only [replica_work, List.takeWhile, if_neg ht]
        rw [show (t != TAG_TERMINATE) = true by simpa using ht]
        simp only [List.map_cons]
        rw [ih]
        rfl
  · simp [callback_invoked, htag]
  · simp [callback_invoked]

/-- Witness for `c10_tag_dispatch`: messages tagged 7 and 3 are executed as
work, the loop stops at the tag-2 terminate, and the trailing message is
never processed; tag 7 would invoke the callback, the error tag would not. -/
theorem c10_tag_dispatch_witness :
    replica_work (fun n => .ok (n + 1)) [(7, 5), (3, 8), (2, 0), (1, 9)] =
      ([(7, 5), (3, 8), (2, 0), (1, 9)].takeWhile (fun m => m.1 != TAG_TERMINATE)).map
        (fun m => work_reply (fun n => .ok (n + 1)) m.2) ∧
    callback_invoked 7 = true ∧
    callback_invoked ERR_TAG = false :=
  c10_tag_dispatch (fun n => .ok (n + 1)) [(7, 5), (3, 8), (2, 0), (1, 9)] 7 (by decide)

end MPIPool
